import Mathlib

/-!
Verification of the Celeritas Python bindings (celeritas/celeritas.py).

Modelling conventions:
- Python integers are `Int`.
- Python float arithmetic on `time`, `duration`, and loop cursors is modelled
  as exact rational arithmetic over `ℚ`; `int(x)` (truncation toward zero) is
  modelled by `pyInt`.  Division by a zero denominator, which Python reports
  as `ZeroDivisionError`, is handled explicitly where it can occur.
- The `while` loop of `Trill.expand` is embedded twice: `trillGo`, a total
  function whose guard is strengthened with `0 < note_duration` (for a
  positive step it coincides with the source loop, and for a non-positive
  step the Python loop never terminates, a region excluded from every
  theorem about it), and `trillGoFuel`, a fuel-indexed faithful embedding
  returning `none` when the fuel runs out; the two are proven to agree
  whenever the step is positive.
-/

/-- Truncation toward zero, the behavior of Python `int()` on a number. -/
def pyInt (q : ℚ) : Int := if 0 ≤ q then ⌊q⌋ else ⌈q⌉

/-- The `NoteEvent` dataclass: a plain record of six integer fields with no
construction-time checks (the Python class defines no validation hook). -/
structure NoteEvent where
  pitch : Int
  time_numerator : Int
  time_denominator : Int
  duration_numerator : Int
  duration_denominator : Int
  velocity : Int
  deriving Repr, DecidableEq

/-- The `time` property: `time_numerator / time_denominator`. -/
def NoteEvent.time (n : NoteEvent) : ℚ :=
  (n.time_numerator : ℚ) / (n.time_denominator : ℚ)

/-- The `duration` property: `duration_numerator / duration_denominator`. -/
def NoteEvent.duration (n : NoteEvent) : ℚ :=
  (n.duration_numerator : ℚ) / (n.duration_denominator : ℚ)

/-- Validity predicate for a note event, as stated by the specification
(section 4.2): pitch and velocity in [0,127], positive duration fields.
The Python code never checks it; it is used as a hypothesis of theorems
about valid inputs. -/
def NoteEvent.Valid (n : NoteEvent) : Prop :=
  0 ≤ n.pitch ∧ n.pitch ≤ 127 ∧ 0 ≤ n.velocity ∧ n.velocity ≤ 127 ∧
    0 < n.duration_numerator ∧ 0 < n.duration_denominator

instance (n : NoteEvent) : Decidable n.Valid := by
  unfold NoteEvent.Valid; infer_instance

/-- The `MordentType` enum. -/
inductive MordentType where
  | UPPER
  | LOWER
  deriving Repr, DecidableEq

/-- The `Mordent` class fields. -/
structure Mordent where
  base_note : NoteEvent
  type : MordentType
  interval : Int
  alternations : Int

/-- Body of the `for i in range(note_count)` loop of `Mordent.expand`:
`rem` iterations remain, `i` is the loop index, `cur` the running
`current_time`.  Each iteration appends
`NoteEvent(pitch, int(current_time*4), 4, int(note_duration*4), 4, velocity)`
and advances `current_time` by `note_duration`. -/
def mordentGo (basePitch neighborPitch v : Int) (noteDur : ℚ) :
    Nat → Nat → ℚ → List NoteEvent
  | 0, _, _ => []
  | rem + 1, i, cur =>
      { pitch := if i % 2 = 0 then basePitch else neighborPitch
        time_numerator := pyInt (cur * 4)
        time_denominator := 4
        duration_numerator := pyInt (noteDur * 4)
        duration_denominator := 4
        velocity := v } ::
        mordentGo basePitch neighborPitch v noteDur rem (i + 1) (cur + noteDur)

/-- `Mordent.expand`: `note_count = 2*alternations + 1`,
`note_duration = base_note.duration / note_count` (float division in the
source, exact here), neighbor pitch above or below by `interval`, then the
loop `for i in range(note_count)`.  `Int.toNat` reflects that Python
`range` of a non-positive count is empty. -/
def Mordent.expand (m : Mordent) : List NoteEvent :=
  let note_count : Int := 2 * m.alternations + 1
  let note_duration : ℚ := m.base_note.duration / (note_count : ℚ)
  let neighbor_pitch : Int :=
    match m.type with
    | .UPPER => m.base_note.pitch + m.interval
    | .LOWER => m.base_note.pitch - m.interval
  mordentGo m.base_note.pitch neighbor_pitch m.base_note.velocity
    note_duration note_count.toNat 0 m.base_note.time

/-- The `Trill` class fields. -/
structure Trill where
  base_note : NoteEvent
  interval : Int
  speed : Int
  start_with_upper : Bool
  end_with_turn : Bool

/-- The note event appended by one iteration of the `while` loop of
`Trill.expand`:
`NoteEvent(pitch, int(current_time*4), 4, 1, speed*4, velocity)` where
`pitch` is the upper pitch when the alternation flag is set. -/
def trillNote (basePitch upperPitch v speed : Int) (cur : ℚ) (useUpper : Bool) :
    NoteEvent :=
  { pitch := if useUpper then upperPitch else basePitch
    time_numerator := pyInt (cur * 4)
    time_denominator := 4
    duration_numerator := 1
    duration_denominator := speed * 4
    velocity := v }

/-- The `while current_time < end_time` loop of `Trill.expand`, made total
by strengthening the guard with `0 < noteDur` (see the header note): while
the guard holds, emit `trillNote`, advance the cursor and flip the flag. -/
def trillGo (basePitch upperPitch v speed : Int) (noteDur endT : ℚ)
    (cur : ℚ) (useUpper : Bool) : List NoteEvent :=
  if h : cur < endT ∧ 0 < noteDur then
    trillNote basePitch upperPitch v speed cur useUpper ::
      trillGo basePitch upperPitch v speed noteDur endT (cur + noteDur) (!useUpper)
  else []
  termination_by (⌈(endT - cur) / noteDur⌉).toNat
  decreasing_by
    have hx : 0 < (endT - cur) / noteDur := div_pos (by linarith [h.1]) h.2
    have h1 : (1 : Int) ≤ ⌈(endT - cur) / noteDur⌉ := by
      exact_mod_cast Int.ceil_pos.mpr hx
    have h2 : (endT - (cur + noteDur)) / noteDur = (endT - cur) / noteDur - 1 := by
      rw [show endT - (cur + noteDur) = endT - cur - noteDur by ring, sub_div,
        div_self (ne_of_gt h.2)]
    have h3 : ⌈(endT - (cur + noteDur)) / noteDur⌉ = ⌈(endT - cur) / noteDur⌉ - 1 := by
      rw [h2]
      exact_mod_cast Int.ceil_sub_int ((endT - cur) / noteDur) 1
    rw [h3]
    omega

/-- `Trill.expand`:
`note_duration = 1.0/(speed*4)` (a `ZeroDivisionError`, modelled as `none`,
when `speed = 0`), `upper_pitch = pitch + interval`,
`end_time = time + duration`, then the alternation loop starting from
`start_with_upper`.  The `end_with_turn` field is never read. -/
def Trill.expand (t : Trill) : Option (List NoteEvent) :=
  if t.speed * 4 = 0 then none
  else
    let note_duration : ℚ := 1 / ((t.speed : ℚ) * 4)
    let upper_pitch : Int := t.base_note.pitch + t.interval
    let current_time : ℚ := t.base_note.time
    let end_time : ℚ := current_time + t.base_note.duration
    some (trillGo t.base_note.pitch upper_pitch t.base_note.velocity t.speed
      note_duration end_time current_time t.start_with_upper)

/-- Fuel-indexed faithful embedding of the `while current_time < end_time`
loop of `Trill.expand`: the guard is exactly that of the source, and `none`
is returned when the fuel runs out with the guard still true (which models
a loop that has not yet terminated). -/
def trillGoFuel (basePitch upperPitch v speed : Int) (noteDur endT : ℚ) :
    Nat → ℚ → Bool → Option (List NoteEvent)
  | 0, cur, _ => if cur < endT then none else some []
  | fuel + 1, cur, u =>
      if cur < endT then
        (trillGoFuel basePitch upperPitch v speed noteDur endT fuel
            (cur + noteDur) (!u)).map
          (fun rest => trillNote basePitch upperPitch v speed cur u :: rest)
      else some []

/-- The flag value after j flips of the alternation flag. -/
def flipN (u : Bool) (j : Nat) : Bool := if j % 2 = 0 then u else !u

/-- `parse_chord_symbol(symbol, max_pitches)`: `None` for an absent symbol,
`[]` when `max_pitches ≤ 0`, and otherwise the result of the native
chord-symbol parser.  The native call (C code outside this repository) is
abstracted as the function argument `native`; `none` from it models the
branch in which the call reports failure and the wrapper returns `None`. -/
def parse_chord_symbol (native : String → Int → Option (List Int))
    (symbol : Option String) (max_pitches : Int) : Option (List Int) :=
  match symbol with
  | none => none
  | some s => if max_pitches ≤ 0 then some [] else native s max_pitches

/-- Sample chord symbol used in concrete witnesses. -/
def sampleSymbol : String := "C"

/-- Unfolding equation for `Mordent.expand`. -/
lemma mordent_expand_eq (m : Mordent) :
    m.expand = mordentGo m.base_note.pitch
      (match m.type with
       | .UPPER => m.base_note.pitch + m.interval
       | .LOWER => m.base_note.pitch - m.interval)
      m.base_note.velocity
      (m.base_note.duration / ((2 * m.alternations + 1 : Int) : ℚ))
      (2 * m.alternations + 1).toNat 0 m.base_note.time := rfl

/-- Unfolding equation for `Trill.expand` when the speed is nonzero. -/
lemma trill_expand_eq (t : Trill) (hs : t.speed ≠ 0) :
    t.expand = some (trillGo t.base_note.pitch (t.base_note.pitch + t.interval)
      t.base_note.velocity t.speed (1 / ((t.speed : ℚ) * 4))
      (t.base_note.time + t.base_note.duration) t.base_note.time
      t.start_with_upper) := by
  rw [Trill.expand, if_neg (mul_ne_zero hs (by norm_num))]

/-- Unfolding equation for `trillGo`. -/
lemma trillGo_eq (basePitch upperPitch v speed : Int) (noteDur endT cur : ℚ)
    (u : Bool) :
    trillGo basePitch upperPitch v speed noteDur endT cur u =
      if cur < endT ∧ 0 < noteDur then
        trillNote basePitch upperPitch v speed cur u ::
          trillGo basePitch upperPitch v speed noteDur endT (cur + noteDur) (!u)
      else [] := by
  rw [trillGo, dite_eq_ite]

/-- The `time` property of a trill loop note. -/
lemma trillNote_time (bp up v s : Int) (cur : ℚ) (u : Bool) :
    (trillNote bp up v s cur u).time = (pyInt (cur * 4) : ℚ) / 4 := by
  simp [trillNote, NoteEvent.time]

/-- The `duration` property of a trill loop note. -/
lemma trillNote_duration (bp up v s : Int) (cur : ℚ) (u : Bool) :
    (trillNote bp up v s cur u).duration = 1 / ((s : ℚ) * 4) := by
  simp [trillNote, NoteEvent.duration]

/-- Python `int()` truncation is monotone. -/
lemma pyInt_mono {p q : ℚ} (h : p ≤ q) : pyInt p ≤ pyInt q := by
  unfold pyInt
  split_ifs with hp hq hq
  · exact Int.floor_mono h
  · exact absurd (le_trans hp h) hq
  · have h1 : ⌈p⌉ ≤ (0 : Int) := Int.ceil_le.mpr (by push_cast; linarith)
    have h2 : 0 ≤ ⌊q⌋ := Int.floor_nonneg.mpr hq
    omega
  · exact Int.ceil_mono h

/-- The mordent loop emits exactly as many notes as iterations remain. -/
lemma mordentGo_length (b nb v : Int) (d : ℚ) :
    ∀ (rem i : Nat) (cur : ℚ), (mordentGo b nb v d rem i cur).length = rem := by
  intro rem
  induction rem with
  | zero => intro i cur; rfl
  | succ rem ih => intro i cur; simp [mordentGo, ih]

/-- Closed form of the notes emitted by the mordent loop: the j-th note of
an iteration starting at index i and cursor cur. -/
lemma mordentGo_getElem (b nb v : Int) (d : ℚ) :
    ∀ (rem j i : Nat) (cur : ℚ), j < rem →
      (mordentGo b nb v d rem i cur)[j]? =
        some { pitch := if (i + j) % 2 = 0 then b else nb
               time_numerator := pyInt ((cur + j * d) * 4)
               time_denominator := 4
               duration_numerator := pyInt (d * 4)
               duration_denominator := 4
               velocity := v } := by
  intro rem
  induction rem with
  | zero => intro j i cur hj; omega
  | succ rem ih =>
      intro j i cur hj
      match j with
      | 0 =>
          simp [mordentGo]
      | j + 1 =>
          have hj2 : j < rem := by omega
          rw [mordentGo, List.getElem?_cons_succ, ih j (i + 1) (cur + d) hj2]
          have hmod : (i + 1 + j) % 2 = (i + (j + 1)) % 2 := by omega
          have hcur : cur + d + (j : ℚ) * d = cur + ((j : ℚ) + 1) * d := by ring
          simp [hmod, hcur]

lemma flipN_not (u : Bool) (j : Nat) : flipN (!u) j = flipN u (j + 1) := by
  rcases Nat.mod_two_eq_zero_or_one j with h | h <;>
    simp [flipN, h, Nat.add_mod]

/-- Closed form of the notes emitted by the trill loop: when the j-th note
exists, it is the loop body note at cursor `cur + j·noteDur` with the flag
flipped j times, and that cursor is still strictly before the end time. -/
lemma trillGo_getElem (bp up v s : Int) (d endT : ℚ) :
    ∀ (j : Nat) (cur : ℚ) (u : Bool),
      j < (trillGo bp up v s d endT cur u).length →
      (trillGo bp up v s d endT cur u)[j]? =
          some (trillNote bp up v s (cur + j * d) (flipN u j)) ∧
        cur + j * d < endT := by
  intro j
  induction j with
  | zero =>
      intro cur u hj
      rw [trillGo_eq] at hj ⊢
      by_cases hg : cur < endT ∧ 0 < d
      · rw [if_pos hg]
        refine ⟨?_, by simpa using hg.1⟩
        simp [flipN]
      · rw [if_neg hg] at hj; simp at hj
  | succ j ih =>
      intro cur u hj
      rw [trillGo_eq] at hj ⊢
      by_cases hg : cur < endT ∧ 0 < d
      · rw [if_pos hg] at hj ⊢
        simp only [List.length_cons, Nat.succ_lt_succ_iff] at hj
        rw [List.getElem?_cons_succ]
        obtain ⟨h1, h2⟩ := ih (cur + d) (!u) hj
        have hcur : cur + d + (j : ℚ) * d = cur + ((j : ℚ) + 1) * d := by ring
        rw [h1, flipN_not]
        constructor
        · push_cast
          rw [hcur]
        · push_cast
          linarith
      · rw [if_neg hg] at hj; simp at hj

/-- The trill loop emits at least one note when the guard holds initially. -/
lemma trillGo_ne_nil (bp up v s : Int) (d endT cur : ℚ) (u : Bool)
    (h1 : cur < endT) (h2 : 0 < d) :
    trillGo bp up v s d endT cur u ≠ [] := by
  rw [trillGo_eq, if_pos ⟨h1, h2⟩]
  simp

/-- With a positive step, enough fuel makes the faithful loop terminate
with exactly the notes of the total model `trillGo`. -/
lemma trillGoFuel_eq_trillGo (bp up v s : Int) (d endT : ℚ) (hd : 0 < d) :
    ∀ (fuel : Nat) (cur : ℚ) (u : Bool),
      (⌈(endT - cur) / d⌉).toNat ≤ fuel →
      trillGoFuel bp up v s d endT fuel cur u =
        some (trillGo bp up v s d endT cur u) := by
  intro fuel
  induction fuel with
  | zero =>
      intro cur u hf
      have hle : ⌈(endT - cur) / d⌉ ≤ 0 := by omega
      have hnd : (endT - cur) / d ≤ 0 := by exact_mod_cast Int.ceil_le.mp hle
      have hend : ¬ cur < endT := by
        intro hlt
        exact absurd (div_pos (by linarith) hd) (not_lt_of_ge hnd)
      rw [trillGoFuel, if_neg hend, trillGo_eq,
        if_neg (fun hg => hend hg.1)]
  | succ fuel ih =>
      intro cur u hf
      by_cases hc : cur < endT
      · have hx : 0 < (endT - cur) / d := div_pos (by linarith) hd
        have h1 : (1 : Int) ≤ ⌈(endT - cur) / d⌉ := Int.ceil_pos.mpr hx
        have h2 : (endT - (cur + d)) / d = (endT - cur) / d - 1 := by
          rw [show endT - (cur + d) = endT - cur - d by ring, sub_div,
            div_self (ne_of_gt hd)]
        have h3 : ⌈(endT - (cur + d)) / d⌉ = ⌈(endT - cur) / d⌉ - 1 := by
          rw [h2]
          exact_mod_cast Int.ceil_sub_int ((endT - cur) / d) 1
        have hf2 : (⌈(endT - (cur + d)) / d⌉).toNat ≤ fuel := by
          rw [h3]; omega
        rw [trillGoFuel, if_pos hc, ih (cur + d) (!u) hf2]
        conv_rhs => rw [trillGo_eq]
        rw [if_pos ⟨hc, hd⟩]
        rfl
      · rw [trillGoFuel, if_neg hc, trillGo_eq, if_neg (fun hg => hc hg.1)]

/-- C2 counterexample: constructing a `NoteEvent` with pitch 128 (and with
pitch -1) succeeds and stores the out-of-range pitch verbatim — no
`ValidationError` is raised (the dataclass defines no validation), refuting
the claim that construction validates `pitch ∈ [0,127]`. -/
theorem noteEvent_pitch128_constructs :
    (NoteEvent.mk 128 0 1 1 4 80).pitch = 128 ∧
      ¬ (NoteEvent.mk 128 0 1 1 4 80).Valid ∧
      (NoteEvent.mk (-1) 0 1 1 4 80).pitch = -1 := by
  refine ⟨rfl, ?_, rfl⟩
  intro hv
  exact absurd hv.2.1 (by decide)

/-- C2 (amended): `NoteEvent` construction performs no validation at all —
it is a plain record constructor that always succeeds and stores every
field verbatim, for in-range and out-of-range values alike; in particular
pitch 0, 127, 128 and -1 all construct successfully. -/
theorem noteEvent_construction_unvalidated (p tn td dn dd v : Int) :
    (NoteEvent.mk p tn td dn dd v).pitch = p ∧
      (NoteEvent.mk p tn td dn dd v).velocity = v ∧
      (NoteEvent.mk p tn td dn dd v).duration_numerator = dn ∧
      (NoteEvent.mk p tn td dn dd v).duration_denominator = dd :=
  ⟨rfl, rfl, rfl, rfl⟩

/-- C3 counterexample: a trill on a base note of duration 0 (duration
numerator 0) with speed 8 returns the empty note list without any error,
refuting the claim that `Trill.expand` always fails before emitting notes
when the base duration is ≤ 0. -/
theorem trill_zero_duration_returns_empty :
    Trill.expand ⟨⟨60, 0, 1, 0, 1, 80⟩, 2, 8, false, false⟩ = some [] := by
  rw [trill_expand_eq _ (by norm_num)]
  rw [trillGo_eq, if_neg]
  intro hg
  have := hg.1
  norm_num [NoteEvent.time, NoteEvent.duration] at this

/-- C3 (amended): when `speed = 0`, `Trill.expand` fails with a division
by zero (modelled as `none`) before emitting any note; when `speed ≠ 0`
and the base duration is ≤ 0 it does not fail but instead returns the
empty list, because the loop guard is false at the first check. -/
theorem trill_nonpositive_inputs (t : Trill) :
    (t.speed = 0 → t.expand = none) ∧
      (t.speed ≠ 0 → t.base_note.duration ≤ 0 → t.expand = some []) := by
  constructor
  · intro hs
    rw [Trill.expand, if_pos (by rw [hs]; ring)]
  · intro hs hd
    rw [trill_expand_eq t hs]
    rw [trillGo_eq, if_neg]
    intro hg
    have := hg.1
    linarith

/-- Witness for the amended C3 theorem at concrete inputs: speed 0 yields
the error marker, and duration 0 with speed 8 yields the empty list. -/
theorem trill_nonpositive_inputs_witness :
    Trill.expand ⟨⟨60, 0, 1, 1, 4, 80⟩, 2, 0, false, false⟩ = none ∧
      Trill.expand ⟨⟨60, 0, 1, 0, 1, 80⟩, 2, 8, true, true⟩ = some [] :=
  ⟨(trill_nonpositive_inputs _).1 rfl,
    (trill_nonpositive_inputs _).2 (by norm_num)
      (by norm_num [NoteEvent.duration])⟩

/-- C8: `end_with_turn` has no observable effect — two trills that agree
on every other field expand to identical results. -/
theorem trill_end_with_turn_no_effect (b : NoteEvent) (i s : Int)
    (u e1 e2 : Bool) :
    Trill.expand ⟨b, i, s, u, e1⟩ = Trill.expand ⟨b, i, s, u, e2⟩ := rfl

/-- C9: for any behavior of the native parser, any present symbol and any
`max_pitches ≤ 0` yield the empty pitch list without error, and an absent
symbol yields the NotFound marker. -/
theorem parse_chord_symbol_guards
    (native : String → Int → Option (List Int)) (s : String) (m : Int) :
    (m ≤ 0 → parse_chord_symbol native (some s) m = some []) ∧
      parse_chord_symbol native none m = none := by
  constructor
  · intro hm
    simp [parse_chord_symbol, if_pos hm]
  · rfl

/-- Witness for C9 at `max_pitches = 0` and a trivial native parser. -/
theorem parse_chord_symbol_guards_witness :
    parse_chord_symbol (fun _ _ => none) (some sampleSymbol) 0 = some [] ∧
      parse_chord_symbol (fun _ _ => none) none 0 = none :=
  ⟨(parse_chord_symbol_guards (fun _ _ => none) sampleSymbol 0).1 (by norm_num),
    (parse_chord_symbol_guards (fun _ _ => none) sampleSymbol 0).2⟩

/-- C4: for a valid base note and alternations ≥ 1, `Mordent.expand`
returns exactly `2a+1` notes whose pitches alternate between the base
pitch (even indices) and the neighbor pitch (odd indices, above for UPPER
and below for LOWER), every note carrying the base velocity. -/
theorem mordent_expand_shape (m : Mordent) (hv : m.base_note.Valid)
    (ha : 1 ≤ m.alternations) :
    ((m.expand.length : Int) = 2 * m.alternations + 1) ∧
      (∀ j : Nat, j < m.expand.length →
        (m.expand[j]?).map NoteEvent.pitch =
          some (if j % 2 = 0 then m.base_note.pitch
            else
              match m.type with
              | .UPPER => m.base_note.pitch + m.interval
              | .LOWER => m.base_note.pitch - m.interval)) ∧
      ∀ n ∈ m.expand, n.velocity = m.base_note.velocity := by
  have hlen : m.expand.length = (2 * m.alternations + 1).toNat := by
    rw [mordent_expand_eq]
    exact mordentGo_length _ _ _ _ _ _ _
  refine ⟨?_, ?_, ?_⟩
  · rw [hlen, Int.toNat_of_nonneg (by omega)]
  · intro j hj
    rw [hlen] at hj
    rw [mordent_expand_eq, mordentGo_getElem _ _ _ _ _ j 0 _ hj]
    simp
  · intro n hn
    rw [mordent_expand_eq] at hn
    obtain ⟨j, hj, hget⟩ := List.mem_iff_getElem.mp hn
    have hj2 : j < (2 * m.alternations + 1).toNat := by
      rw [← mordentGo_length m.base_note.pitch
        (match m.type with
         | .UPPER => m.base_note.pitch + m.interval
         | .LOWER => m.base_note.pitch - m.interval)
        m.base_note.velocity
        (m.base_note.duration / ((2 * m.alternations + 1 : Int) : ℚ))
        (2 * m.alternations + 1).toNat 0 m.base_note.time]
      exact hj
    have h2 := mordentGo_getElem m.base_note.pitch
      (match m.type with
       | .UPPER => m.base_note.pitch + m.interval
       | .LOWER => m.base_note.pitch - m.interval)
      m.base_note.velocity
      (m.base_note.duration / ((2 * m.alternations + 1 : Int) : ℚ))
      (2 * m.alternations + 1).toNat j 0 m.base_note.time hj2
    rw [List.getElem?_eq_getElem hj, hget] at h2
    rw [Option.some_inj.mp h2]

/-- Witness for C4 at the spec scenario: base pitch 64, time 0/1,
duration 1/2, velocity 80, upper mordent with interval 2, one
alternation. -/
theorem mordent_expand_shape_witness :
    (⟨64, 0, 1, 1, 2, 80⟩ : NoteEvent).Valid ∧ (1 : Int) ≤ 1 ∧
      (((Mordent.expand ⟨⟨64, 0, 1, 1, 2, 80⟩, .UPPER, 2, 1⟩).length : Int) =
          2 * 1 + 1 ∧
        (∀ j : Nat, j < (Mordent.expand ⟨⟨64, 0, 1, 1, 2, 80⟩, .UPPER, 2, 1⟩).length →
          ((Mordent.expand ⟨⟨64, 0, 1, 1, 2, 80⟩, .UPPER, 2, 1⟩)[j]?).map
              NoteEvent.pitch =
            some (if j % 2 = 0 then (64 : Int) else 64 + 2)) ∧
        ∀ n ∈ Mordent.expand ⟨⟨64, 0, 1, 1, 2, 80⟩, .UPPER, 2, 1⟩,
          n.velocity = 80) :=
  ⟨by decide, by norm_num,
    mordent_expand_shape ⟨⟨64, 0, 1, 1, 2, 80⟩, .UPPER, 2, 1⟩ (by decide)
      (by norm_num)⟩

/-- C1 counterexample: at the spec scenario (base pitch 64, time 0/1,
duration 1/2, velocity 80, upper mordent, interval 2, one alternation) the
emitted durations are 0, 0, 0 (not thirds of 1/2) and the emitted times
are 0, 0, 1/4 (not 0, 1/6, 2/6), because the code truncates
`note_duration * 4` and `current_time * 4` to integers over the fixed
denominator 4. -/
theorem mordent_concrete_not_exact :
    (Mordent.expand ⟨⟨64, 0, 1, 1, 2, 80⟩, .UPPER, 2, 1⟩).map NoteEvent.duration =
        [0, 0, 0] ∧
      (Mordent.expand ⟨⟨64, 0, 1, 1, 2, 80⟩, .UPPER, 2, 1⟩).map NoteEvent.time =
        [0, 0, 1 / 4] ∧
      ¬ ((0 : ℚ) = 1 / 6) ∧ ¬ ((1 / 4 : ℚ) = 2 / 6) := by
  refine ⟨?_, ?_, by norm_num, by norm_num⟩ <;>
    · simp [Mordent.expand, mordentGo, NoteEvent.time, NoteEvent.duration, pyInt]
      norm_num

/-- C1 (amended): for a valid base note and alternations ≥ 1, every note
emitted by `Mordent.expand` has duration `int(4·(D/(2a+1)))/4` — the exact
per-note duration truncated onto the quarter-note grid, not `D/(2a+1)`
itself — and the j-th note has time `int(4·(t0 + j·(D/(2a+1))))/4`; the
durations therefore tile D exactly only when `D/(2a+1)` is a whole number
of quarter notes. -/
theorem mordent_expand_quantized (m : Mordent) (hv : m.base_note.Valid)
    (ha : 1 ≤ m.alternations) :
    ∀ j : Nat, j < m.expand.length →
      (m.expand[j]?).map
          (fun n => (n.duration_numerator, n.duration_denominator,
            n.time_numerator, n.time_denominator)) =
        some
          (pyInt ((m.base_note.duration / ((2 * m.alternations + 1 : Int) : ℚ)) * 4),
            4,
            pyInt ((m.base_note.time +
              j * (m.base_note.duration / ((2 * m.alternations + 1 : Int) : ℚ))) * 4),
            4) := by
  intro j hj
  have hlen : m.expand.length = (2 * m.alternations + 1).toNat := by
    rw [mordent_expand_eq]
    exact mordentGo_length _ _ _ _ _ _ _
  rw [hlen] at hj
  rw [mordent_expand_eq, mordentGo_getElem _ _ _ _ _ j 0 _ hj]
  simp

/-- Witness for the amended C1 theorem at the spec scenario. -/
theorem mordent_expand_quantized_witness :
    (⟨64, 0, 1, 1, 2, 80⟩ : NoteEvent).Valid ∧ (1 : Int) ≤ 1 ∧
      (∀ j : Nat, j < (Mordent.expand ⟨⟨64, 0, 1, 1, 2, 80⟩, .UPPER, 2, 1⟩).length →
        ((Mordent.expand ⟨⟨64, 0, 1, 1, 2, 80⟩, .UPPER, 2, 1⟩)[j]?).map
            (fun n => (n.duration_numerator, n.duration_denominator,
              n.time_numerator, n.time_denominator)) =
          some
            (pyInt (((⟨64, 0, 1, 1, 2, 80⟩ : NoteEvent).duration /
                ((2 * 1 + 1 : Int) : ℚ)) * 4),
              4,
              pyInt (((⟨64, 0, 1, 1, 2, 80⟩ : NoteEvent).time +
                j * ((⟨64, 0, 1, 1, 2, 80⟩ : NoteEvent).duration /
                  ((2 * 1 + 1 : Int) : ℚ))) * 4),
              4)) :=
  ⟨by decide, by norm_num,
    mordent_expand_quantized ⟨⟨64, 0, 1, 1, 2, 80⟩, .UPPER, 2, 1⟩ (by decide)
      (by norm_num)⟩

/-- C7: for speed ≥ 1 and positive base duration the loop runs at least
once, and the first emitted note has the base pitch when
`start_with_upper` is false and the upper pitch `p + interval` when it is
true. -/
theorem trill_first_note_pitch (t : Trill) (hs : 1 ≤ t.speed)
    (hd : 0 < t.base_note.duration) :
    ∃ l, t.expand = some l ∧
      l.head?.map NoteEvent.pitch =
        some (if t.start_with_upper then t.base_note.pitch + t.interval
          else t.base_note.pitch) := by
  have hs0 : t.speed ≠ 0 := by omega
  have hsq : (1 : ℚ) ≤ (t.speed : ℚ) := by exact_mod_cast hs
  have hdpos : (0 : ℚ) < 1 / ((t.speed : ℚ) * 4) :=
    div_pos one_pos (by nlinarith)
  rw [trill_expand_eq t hs0]
  refine ⟨_, rfl, ?_⟩
  rw [trillGo_eq, if_pos ⟨by linarith, hdpos⟩]
  cases hu : t.start_with_upper <;> simp [trillNote, hu]

/-- Witness for C7 with `start_with_upper = true`. -/
theorem trill_first_note_pitch_witness :
    (1 : Int) ≤ 1 ∧ (0 : ℚ) < (⟨60, 0, 1, 1, 4, 80⟩ : NoteEvent).duration ∧
      ∃ l, Trill.expand ⟨⟨60, 0, 1, 1, 4, 80⟩, 2, 1, true, false⟩ = some l ∧
        l.head?.map NoteEvent.pitch = some (60 + 2) :=
  ⟨by norm_num, by norm_num [NoteEvent.duration],
    trill_first_note_pitch ⟨⟨60, 0, 1, 1, 4, 80⟩, 2, 1, true, false⟩
      (by norm_num) (by norm_num [NoteEvent.duration])⟩

/-- C6: for speed ≥ 1 and positive base duration, the faithful fuel-indexed
embedding of the while loop terminates — some finite fuel returns an
actual (finite) note list. -/
theorem trill_loop_terminates (t : Trill) (hs : 1 ≤ t.speed)
    (hd : 0 < t.base_note.duration) :
    ∃ (fuel : Nat) (l : List NoteEvent),
      trillGoFuel t.base_note.pitch (t.base_note.pitch + t.interval)
        t.base_note.velocity t.speed (1 / ((t.speed : ℚ) * 4))
        (t.base_note.time + t.base_note.duration) fuel t.base_note.time
        t.start_with_upper = some l := by
  have hsq : (1 : ℚ) ≤ (t.speed : ℚ) := by exact_mod_cast hs
  have hdpos : (0 : ℚ) < 1 / ((t.speed : ℚ) * 4) :=
    div_pos one_pos (by nlinarith)
  exact ⟨_, _,
    trillGoFuel_eq_trillGo t.base_note.pitch (t.base_note.pitch + t.interval)
      t.base_note.velocity t.speed (1 / ((t.speed : ℚ) * 4))
      (t.base_note.time + t.base_note.duration) hdpos _ t.base_note.time
      t.start_with_upper le_rfl⟩

/-- Witness for C6 at speed 1 on a quarter-note base. -/
theorem trill_loop_terminates_witness :
    (1 : Int) ≤ 1 ∧ (0 : ℚ) < (⟨60, 0, 1, 1, 4, 80⟩ : NoteEvent).duration ∧
      ∃ (fuel : Nat) (l : List NoteEvent),
        trillGoFuel 60 (60 + 2) 80 1 (1 / (((1 : Int) : ℚ) * 4))
          ((⟨60, 0, 1, 1, 4, 80⟩ : NoteEvent).time +
            (⟨60, 0, 1, 1, 4, 80⟩ : NoteEvent).duration) fuel
          (⟨60, 0, 1, 1, 4, 80⟩ : NoteEvent).time false = some l :=
  ⟨by norm_num, by norm_num [NoteEvent.duration],
    trill_loop_terminates ⟨⟨60, 0, 1, 1, 4, 80⟩, 2, 1, false, false⟩
      (by norm_num) (by norm_num [NoteEvent.duration])⟩

/-- C5: for speed ≥ 1 and a valid base note, `Trill.expand` succeeds with a
nonempty list whose times are non-decreasing, every note has duration
exactly `1/(4·speed)`, and the cursor start of every emitted note lies
strictly before `t0 + D`. -/
theorem trill_expand_notes (t : Trill) (hs : 1 ≤ t.speed)
    (hv : t.base_note.Valid) :
    ∃ l, t.expand = some l ∧ l ≠ [] ∧
      l.Pairwise (fun a b => a.time ≤ b.time) ∧
      (∀ n ∈ l, n.duration = 1 / (4 * (t.speed : ℚ))) ∧
      ∀ j : Nat, j < l.length →
        t.base_note.time + j * (1 / ((t.speed : ℚ) * 4)) <
          t.base_note.time + t.base_note.duration := by
  have hs0 : t.speed ≠ 0 := by omega
  have hsq : (1 : ℚ) ≤ (t.speed : ℚ) := by exact_mod_cast hs
  have hdpos : (0 : ℚ) < 1 / ((t.speed : ℚ) * 4) :=
    div_pos one_pos (by nlinarith)
  have hD : (0 : ℚ) < t.base_note.duration := by
    rw [NoteEvent.duration]
    exact div_pos (by exact_mod_cast hv.2.2.2.2.1) (by exact_mod_cast hv.2.2.2.2.2)
  rw [trill_expand_eq t hs0]
  refine ⟨_, rfl,
    trillGo_ne_nil _ _ _ _ _ _ _ _ (by linarith) hdpos, ?_, ?_, ?_⟩
  · rw [List.pairwise_iff_getElem]
    intro i j hi hj hij
    have hgi := (trillGo_getElem _ _ _ _ _ _ i _ _ hi).1
    have hgj := (trillGo_getElem _ _ _ _ _ _ j _ _ hj).1
    have hei := Option.some_inj.mp ((List.getElem?_eq_getElem hi).symm.trans hgi)
    have hej := Option.some_inj.mp ((List.getElem?_eq_getElem hj).symm.trans hgj)
    rw [hei, hej, trillNote_time, trillNote_time]
    have hmono : pyInt ((t.base_note.time + i * (1 / ((t.speed : ℚ) * 4))) * 4) ≤
        pyInt ((t.base_note.time + j * (1 / ((t.speed : ℚ) * 4))) * 4) := by
      apply pyInt_mono
      have hij2 : (i : ℚ) ≤ (j : ℚ) := by exact_mod_cast le_of_lt hij
      nlinarith
    gcongr
  · intro n hn
    obtain ⟨j, hj, hget⟩ := List.mem_iff_getElem.mp hn
    have hgj := (trillGo_getElem _ _ _ _ _ _ j _ _ hj).1
    have hej := Option.some_inj.mp ((List.getElem?_eq_getElem hj).symm.trans hgj)
    rw [← hget, hej, trillNote_duration, mul_comm]
  · intro j hj
    exact (trillGo_getElem _ _ _ _ _ _ j _ _ hj).2

/-- Witness for C5 at speed 1 on a quarter-note base. -/
theorem trill_expand_notes_witness :
    (1 : Int) ≤ 1 ∧ (⟨60, 0, 1, 1, 4, 80⟩ : NoteEvent).Valid ∧
      ∃ l, Trill.expand ⟨⟨60, 0, 1, 1, 4, 80⟩, 2, 1, false, false⟩ = some l ∧
        l ≠ [] ∧ l.Pairwise (fun a b => a.time ≤ b.time) ∧
        (∀ n ∈ l, n.duration = 1 / (4 * ((1 : Int) : ℚ))) ∧
        ∀ j : Nat, j < l.length →
          (⟨60, 0, 1, 1, 4, 80⟩ : NoteEvent).time +
              j * (1 / (((1 : Int) : ℚ) * 4)) <
            (⟨60, 0, 1, 1, 4, 80⟩ : NoteEvent).time +
              (⟨60, 0, 1, 1, 4, 80⟩ : NoteEvent).duration :=
  ⟨by norm_num, by decide,
    trill_expand_notes ⟨⟨60, 0, 1, 1, 4, 80⟩, 2, 1, false, false⟩ (by norm_num)
      (by decide)⟩

/-- C10: every note emitted by `Trill.expand` has `time_denominator = 4`
and `time_numerator = int(cursor·4)` where the cursor of the j-th note is
`t0 + j·(1/(4·speed))`, and every note emitted by `Mordent.expand` has the
same quarter-grid time fields for its cursor `t0 + j·(D/(2a+1))` along
with `duration_denominator = 4`. -/
theorem expand_times_quarter_grid :
    (∀ (t : Trill) (l : List NoteEvent), t.expand = some l →
        ∀ j : Nat, j < l.length →
          (l[j]?).map (fun n => (n.time_numerator, n.time_denominator)) =
            some
              (pyInt ((t.base_note.time + j * (1 / ((t.speed : ℚ) * 4))) * 4),
                4)) ∧
      ∀ (m : Mordent) (j : Nat), j < m.expand.length →
        (m.expand[j]?).map
            (fun n => (n.time_numerator, n.time_denominator,
              n.duration_denominator)) =
          some
            (pyInt ((m.base_note.time +
                j * (m.base_note.duration / ((2 * m.alternations + 1 : Int) : ℚ))) *
                4),
              4, 4) := by
  constructor
  · intro t l hl j hj
    have hs0 : t.speed ≠ 0 := by
      intro h0
      rw [Trill.expand, if_pos (by rw [h0]; ring)] at hl
      exact Option.noConfusion hl
    rw [trill_expand_eq t hs0] at hl
    obtain rfl := Option.some_inj.mp hl
    have hg := (trillGo_getElem _ _ _ _ _ _ j _ _ hj).1
    rw [hg]
    simp [trillNote]
  · intro m j hj
    have hlen : m.expand.length = (2 * m.alternations + 1).toNat := by
      rw [mordent_expand_eq]
      exact mordentGo_length _ _ _ _ _ _ _
    rw [hlen] at hj
    rw [mordent_expand_eq, mordentGo_getElem _ _ _ _ _ j 0 _ hj]
    simp

/-- Witness for C10: the trill part at speed 1 on a quarter-note base
(one emitted note) and the mordent part at the spec scenario, both at
index 0. -/
theorem expand_times_quarter_grid_witness :
    (Trill.expand ⟨⟨60, 0, 1, 1, 4, 80⟩, 2, 1, false, false⟩ =
        some [⟨60, 0, 4, 1, 4, 80⟩] ∧
      ([(⟨60, 0, 4, 1, 4, 80⟩ : NoteEvent)][0]?).map
          (fun n => (n.time_numerator, n.time_denominator)) =
        some
          (pyInt (((⟨60, 0, 1, 1, 4, 80⟩ : NoteEvent).time +
            ((0 : Nat) : ℚ) * (1 / (((1 : Int) : ℚ) * 4))) * 4), 4)) ∧
      0 < (Mordent.expand ⟨⟨64, 0, 1, 1, 2, 80⟩, .UPPER, 2, 1⟩).length ∧
        ((Mordent.expand ⟨⟨64, 0, 1, 1, 2, 80⟩, .UPPER, 2, 1⟩)[0]?).map
            (fun n => (n.time_numerator, n.time_denominator,
              n.duration_denominator)) =
          some
            (pyInt (((⟨64, 0, 1, 1, 2, 80⟩ : NoteEvent).time +
              ((0 : Nat) : ℚ) * ((⟨64, 0, 1, 1, 2, 80⟩ : NoteEvent).duration /
                ((2 * 1 + 1 : Int) : ℚ))) * 4), 4, 4) := by
  have hexp : Trill.expand ⟨⟨60, 0, 1, 1, 4, 80⟩, 2, 1, false, false⟩ =
      some [⟨60, 0, 4, 1, 4, 80⟩] := by
    rw [trill_expand_eq _ (by norm_num)]
    rw [trillGo_eq, if_pos
      ⟨by norm_num [NoteEvent.time, NoteEvent.duration], by norm_num⟩]
    rw [trillGo_eq, if_neg (by norm_num [NoteEvent.time, NoteEvent.duration])]
    simp [trillNote, pyInt, NoteEvent.time]
  have hmlen : 0 < (Mordent.expand ⟨⟨64, 0, 1, 1, 2, 80⟩, .UPPER, 2, 1⟩).length := by
    rw [mordent_expand_eq, mordentGo_length]
    norm_num
  exact ⟨⟨hexp, expand_times_quarter_grid.1 _ _ hexp 0 (by norm_num)⟩,
    hmlen, expand_times_quarter_grid.2 ⟨⟨64, 0, 1, 1, 2, 80⟩, .UPPER, 2, 1⟩ 0 hmlen⟩
